import Mathlib

/-!
Verification development for the `inferno-collapse-perf` front end and the
folding engine it drives.

The repository source under scrutiny is `src/bin/collapse-perf.rs`: the
command-line front end (struct `Opt`, `Opt::into_parts`, `main`).  The folding
engine itself (the `inferno::collapse::perf` library) is not part of the
visible sources, so its behaviour is modelled here from the specification
(`spec.md`): block splitting, record parsing, frame normalization, stack
trimming, per-worker aggregation with dynamic event-filter resolution,
counter merging, and output serialization.  Definitions translated from the
visible Rust source carry the source names; definitions modelled from the
specification say so in their doc comment.
-/

namespace Perf

/-- Modelled from the spec (§6, configuration surface): the engine's
configuration object `inferno::collapse::perf::Options`, which is not among
the visible sources.  The spec lists exactly these eight recognized options. -/
structure Options where
  include_pid : Bool
  include_tid : Bool
  include_addrs : Bool
  annotate_jit : Bool
  annotate_kernel : Bool
  event_filter : Option String
  nthreads : Nat
  skip_after : Option String
deriving Repr, DecidableEq

/-- Modelled from the spec: `Options::default()`.  The concrete default values
are irrelevant to the claims below (every field is overwritten by
`into_parts`); workers default to one. -/
def Options.default : Options :=
  ⟨false, false, false, false, false, none, 1, none⟩

/-- Modelled from the spec (§3): one raw stack frame of a record block —
address, optional symbol, optional module/object. -/
structure RawFrame where
  addr : Nat
  symbol : Option String
  module : Option String
deriving Repr, DecidableEq

/-- Modelled from the spec (§3): a parsed record — header fields plus the
frame list, ordered leaf-to-root as it appears in the trace.  The spec makes
pid/tid optional integers; the model keeps them as plain integers since no
claim depends on their absence. -/
structure RawRecord where
  comm : String
  pid : Nat
  tid : Nat
  event : String
  frames : List RawFrame
deriving Repr, DecidableEq

/-- Modelled from the spec (§4.3): the frame normalizer.  Symbol present:
label is the symbol, with `_[k]`/`_[j]` appended when the injectable
classification predicate marks the module as kernel/JIT space and the matching
annotation is enabled.  No symbol: hexadecimal address if raw-address
inclusion is on, otherwise the unknown-symbol sentinel. -/
def normalizeFrame (opts : Options) (isKernel isJit : String → Bool)
    (f : RawFrame) : String :=
  match f.symbol with
  | some s =>
    match f.module with
    | some m =>
      if opts.annotate_kernel && isKernel m then s ++ "_[k]"
      else if opts.annotate_jit && isJit m then s ++ "_[j]"
      else s
    | none => s
  | none =>
    if opts.include_addrs then "0x" ++ String.mk (Nat.toDigits 16 f.addr)
    else "[unknown]"

/-- Modelled from the spec (§4.4): the stack trimmer.  Given the root-to-leaf
normalized frame sequence and the optional marker, scan from the root end for
the first frame equal to the marker; if found, keep the match and everything
toward the leaf; otherwise pass the sequence through unchanged. -/
def trimStack (marker : Option String) (frames : List String) : List String :=
  match marker with
  | none => frames
  | some m =>
    if m ∈ frames then frames.dropWhile (fun f => f ≠ m) else frames

/-- Modelled from the spec (§4.5, §4.7): the folded-stack key — process label
optionally suffixed with `-pid` and/or `/tid` per configuration, then the
semicolon-joined root-to-leaf frame labels (normalized then trimmed).  The
record stores frames leaf-to-root, hence the reversal. -/
def stackKey (opts : Options) (isKernel isJit : String → Bool)
    (r : RawRecord) : String :=
  let label := r.comm
    ++ (if opts.include_pid then "-" ++ toString r.pid else "")
    ++ (if opts.include_tid then "/" ++ toString r.tid else "")
  let frames :=
    trimStack opts.skip_after
      ((r.frames.map (normalizeFrame opts isKernel isJit)).reverse)
  String.intercalate ";" (label :: frames)

/-- Modelled from the spec (§3): a SampleCounter — mapping from folded-stack
key to count, kept as an association list with unique keys. -/
abbrev Counter := List (String × Nat)

/-- Modelled from the spec (§4.5): increment the counter entry for a key by
one, inserting the key with count 1 when absent. -/
def bump : Counter → String → Counter
  | [], k => [(k, 1)]
  | (k', n) :: rest, k =>
    if k' = k then (k', n + 1) :: rest else (k', n) :: bump rest k

/-- Modelled from the spec (§4.6, merge phase): add `m` to the entry for a
key, inserting it when absent. -/
def addCount : Counter → String → Nat → Counter
  | [], k, m => [(k, m)]
  | (k', n) :: rest, k, m =>
    if k' = k then (k', n + m) :: rest else (k', n) :: addCount rest k m

/-- Count recorded for a key, zero when the key is absent. -/
def lookupCount : Counter → String → Nat
  | [], _ => 0
  | (k', n) :: rest, k => if k' = k then n else lookupCount rest k

/-- Total of all counts held by a counter. -/
def sumCounts (c : Counter) : Nat := (c.map Prod.snd).sum

/-- Modelled from the spec (§4.6): merge a worker's counter into the
accumulated one by summing counts for identical keys. -/
def mergeCounters (c d : Counter) : Counter :=
  d.foldl (fun acc p => addCount acc p.1 p.2) c

/-- Modelled from the spec (§3, §4.6): per-record step of one worker.  The
state carries the EventFilter resolution (`none` = not yet established) and
the worker's counter.  An unset filter is established as the first event name
encountered; a record whose event matches the established filter bumps its
stack key; a non-matching record is ignored. -/
def step (opts : Options) (isKernel isJit : String → Bool) :
    Option String × Counter → RawRecord → Option String × Counter
  | (none, c), r => (some r.event, bump c (stackKey opts isKernel isJit r))
  | (some e, c), r =>
    if r.event = e then (some e, bump c (stackKey opts isKernel isJit r))
    else (some e, c)

/-- Modelled from the spec (§4.6): fold the per-record step over a worker's
record sequence. -/
def procRecords (opts : Options) (isKernel isJit : String → Bool)
    (st : Option String × Counter) (rs : List RawRecord) :
    Option String × Counter :=
  rs.foldl (step opts isKernel isJit) st

/-- Modelled from the spec (§4.6): one worker's pipeline over its record
range, starting from the configured event filter and an empty counter. -/
def runWorker (opts : Options) (isKernel isJit : String → Bool)
    (rs : List RawRecord) : Counter :=
  (procRecords opts isKernel isJit (opts.event_filter, []) rs).2

/-- Modelled from the spec (§4.6): the parallel coordinator — one independent
pipeline per block-aligned range (each with its own EventFilter-resolution
state), partial counters merged by summing counts for identical keys. -/
def runWorkers (opts : Options) (isKernel isJit : String → Bool)
    (parts : List (List RawRecord)) : Counter :=
  parts.foldl (fun acc part => mergeCounters acc (runWorker opts isKernel isJit part)) []

/-- The records that survive the event filter: with an explicit filter, those
whose event matches it; with the filter unset, those matching the first
record's event (the first event name encountered). -/
def keptRecords (f : Option String) (rs : List RawRecord) : List RawRecord :=
  match f with
  | some e => rs.filter (fun r => r.event = e)
  | none =>
    match rs with
    | [] => []
    | r :: _ => rs.filter (fun r' => r'.event = r.event)

/-- A line is blank when it holds nothing but spaces. -/
def isBlank (s : String) : Bool := s.data.all (fun c => c = ' ')

/-- A line is metadata when it begins with the reserved `#` marker. -/
def isComment (s : String) : Bool := s.data.head? = some '#'

/-- Split a character list at a separator, keeping empty pieces. -/
def splitChar (sep : Char) : List Char → List Char → List String
  | [], cur => [String.mk cur.reverse]
  | c :: cs, cur =>
    if c = sep then String.mk cur.reverse :: splitChar sep cs []
    else splitChar sep cs (c :: cur)

/-- Split a string at a separator character, keeping empty pieces. -/
def splitOnChar (sep : Char) (s : String) : List String :=
  splitChar sep s.data []

/-- The whitespace-separated words of a line. -/
def words (s : String) : List String :=
  (splitOnChar ' ' s).filter (fun t => t ≠ "")

/-- Modelled from the spec (§4.1): the block splitter, working line by line —
a blank line terminates the current block, lines beginning with the reserved
metadata marker `#` are skipped, all other lines join the current block. -/
def splitBlocksAux : List String → List String → List (List String)
  | [], cur => if cur.isEmpty then [] else [cur.reverse]
  | l :: ls, cur =>
    if isBlank l then
      if cur.isEmpty then splitBlocksAux ls []
      else cur.reverse :: splitBlocksAux ls []
    else if isComment l then splitBlocksAux ls cur
    else splitBlocksAux ls (l :: cur)

/-- Modelled from the spec (§4.1): split the input lines into record blocks. -/
def splitBlocks (lines : List String) : List (List String) :=
  splitBlocksAux lines []

/-- Parsed header fields of one record block. -/
structure Header where
  comm : String
  pid : Nat
  tid : Nat
  event : String
deriving Repr, DecidableEq

/-- Single hexadecimal digit value. -/
def hexVal? (c : Char) : Option Nat :=
  if '0' ≤ c ∧ c ≤ '9' then some (c.toNat - '0'.toNat)
  else if 'a' ≤ c ∧ c ≤ 'f' then some (c.toNat - 'a'.toNat + 10)
  else none

/-- Hexadecimal number parser; fails on the empty string or a bad digit. -/
def parseHex? (s : String) : Option Nat :=
  if s.isEmpty then none
  else s.data.foldl
    (fun acc c => acc.bind (fun n => (hexVal? c).map (fun d => 16 * n + d)))
    (some 0)

/-- Modelled from the spec (§4.2, §6): the header grammar, fixed positional —
process name, `pid/tid`, cpu, timestamp, event name, whitespace-separated.  A
line that does not fit the grammar is malformed and parses to `none`. -/
def parseHeader (line : String) : Option Header :=
  match words line with
  | [comm, pt, _cpu, _time, event] =>
    match splitOnChar '/' pt with
    | [p, t] =>
      match p.toNat?, t.toNat? with
      | some pn, some tn => some ⟨comm, pn, tn, event⟩
      | _, _ => none
    | _ => none
  | _ => none

/-- Modelled from the spec (§4.2, §6): the frame grammar — hexadecimal
address, optional symbol, optional module, whitespace-separated; the sentinel
`[unknown]` stands for an unresolved symbol.  A line that does not fit parses
to `none` (the frame is discarded). -/
def parseFrame (line : String) : Option RawFrame :=
  match words line with
  | [a, s] =>
    (parseHex? a).map
      (fun n => ⟨n, if s = "[unknown]" then none else some s, none⟩)
  | [a, s, m] =>
    (parseHex? a).map
      (fun n => ⟨n, if s = "[unknown]" then none else some s, some m⟩)
  | _ => none

/-- Modelled from the spec (§4.2): parse one block — a malformed header
discards the whole block (`none`); malformed frame lines are individually
discarded while the rest of the block is kept. -/
def parseBlock (lines : List String) : Option RawRecord :=
  match lines with
  | [] => none
  | h :: rest =>
    (parseHeader h).map
      (fun hd => ⟨hd.comm, hd.pid, hd.tid, hd.event, rest.filterMap parseFrame⟩)

/-- Modelled from the spec (§4.7): serialize the merged counter, one
newline-terminated line `<stack-key> <count>` per entry. -/
def writeOutput (c : Counter) : String :=
  String.join (c.map (fun p => p.1 ++ " " ++ toString p.2 ++ "\n"))

/-- Modelled from the spec (§6, §7): the end-to-end run over the input text
(given as lines).  A configuration requesting zero workers is rejected before
any processing; otherwise the input is split, parsed, folded and serialized,
and the run succeeds regardless of malformed content.  I/O failures live
outside this model: the input is already in memory. -/
def runSpec (opts : Options) (isKernel isJit : String → Bool)
    (lines : List String) : Except String String :=
  if opts.nthreads = 0 then
    Except.error "invalid configuration: zero workers requested"
  else
    Except.ok (writeOutput (runWorker opts isKernel isJit
      ((splitBlocks lines).filterMap parseBlock)))

end Perf

/-- The command-line options struct `Opt` of `src/bin/collapse-perf.rs`,
field for field (flags, options, args; `infile` kept as a plain string in
place of `PathBuf`). -/
structure Opt where
  addrs : Bool
  all : Bool
  jit : Bool
  kernel : Bool
  pid : Bool
  tid : Bool
  quiet : Bool
  verbose : Nat
  event_filter : Option String
  nthreads : Nat
  infile : Option String
  skip_after : Option String
deriving Repr, DecidableEq

/-- `Opt::into_parts` of `src/bin/collapse-perf.rs`: start from
`Options::default()`, assign the eight configuration fields, and return the
input path together with the options. -/
def Opt.into_parts (o : Opt) : Option String × Perf.Options :=
  let options : Perf.Options :=
    { Perf.Options.default with
        include_pid := o.pid
        include_tid := o.tid
        include_addrs := o.addrs
        annotate_jit := o.jit || o.all
        annotate_kernel := o.kernel || o.all
        event_filter := o.event_filter
        nthreads := o.nthreads
        skip_after := o.skip_after }
  (o.infile, options)

namespace Perf

/-! ### Counter lemmas -/

theorem lookupCount_bump_self (c : Counter) (k : String) :
    lookupCount (bump c k) k = lookupCount c k + 1 := by
  induction c with
  | nil => simp [bump, lookupCount]
  | cons p rest ih =>
    obtain ⟨k', n⟩ := p
    by_cases h : k' = k
    · simp [bump, lookupCount, h]
    · simp [bump, lookupCount, h, ih]

theorem lookupCount_bump_ne (c : Counter) (j k : String) (hjk : j ≠ k) :
    lookupCount (bump c j) k = lookupCount c k := by
  induction c with
  | nil => simp [bump, lookupCount, hjk]
  | cons p rest ih =>
    obtain ⟨k', n⟩ := p
    by_cases h : k' = j
    · subst h
      simp [bump, lookupCount, hjk]
    · simp [bump, lookupCount, h, ih]

theorem sumCounts_bump (c : Counter) (k : String) :
    sumCounts (bump c k) = sumCounts c + 1 := by
  induction c with
  | nil => simp [bump, sumCounts]
  | cons p rest ih =>
    obtain ⟨k', n⟩ := p
    by_cases h : k' = k
    · simp [bump, sumCounts, h]
      omega
    · simp [bump, sumCounts, h] at ih ⊢
      omega

theorem lookupCount_addCount_self (c : Counter) (k : String) (m : Nat) :
    lookupCount (addCount c k m) k = lookupCount c k + m := by
  induction c with
  | nil => simp [addCount, lookupCount]
  | cons p rest ih =>
    obtain ⟨k', n⟩ := p
    by_cases h : k' = k
    · simp [addCount, lookupCount, h]
    · simp [addCount, lookupCount, h, ih]

theorem lookupCount_addCount_ne (c : Counter) (j k : String) (m : Nat)
    (hjk : j ≠ k) : lookupCount (addCount c j m) k = lookupCount c k := by
  induction c with
  | nil => simp [addCount, lookupCount, hjk]
  | cons p rest ih =>
    obtain ⟨k', n⟩ := p
    by_cases h : k' = j
    · subst h
      simp [addCount, lookupCount, hjk]
    · simp [addCount, lookupCount, h, ih]

theorem mem_keys_bump (c : Counter) (j k : String) :
    j ∈ (bump c k).map Prod.fst ↔ j ∈ c.map Prod.fst ∨ j = k := by
  induction c with
  | nil => simp [bump]
  | cons p rest ih =>
    obtain ⟨k', n⟩ := p
    by_cases h : k' = k
    · subst h
      simp [bump]
      tauto
    · simp [bump, h, ih]
      tauto

theorem mem_keys_addCount (c : Counter) (j k : String) (m : Nat) :
    j ∈ (addCount c k m).map Prod.fst ↔ j ∈ c.map Prod.fst ∨ j = k := by
  induction c with
  | nil => simp [addCount]
  | cons p rest ih =>
    obtain ⟨k', n⟩ := p
    by_cases h : k' = k
    · subst h
      simp [addCount]
      tauto
    · simp [addCount, h, ih]
      tauto

theorem nodupKeys_bump (c : Counter) (k : String)
    (hnd : (c.map Prod.fst).Nodup) : ((bump c k).map Prod.fst).Nodup := by
  induction c with
  | nil => simp [bump]
  | cons p rest ih =>
    obtain ⟨k', n⟩ := p
    simp only [List.map_cons, List.nodup_cons] at hnd
    by_cases h : k' = k
    · subst h
      simpa [bump] using hnd
    · simp only [bump, if_neg h, List.map_cons, List.nodup_cons]
      refine ⟨?_, ih hnd.2⟩
      rw [mem_keys_bump]
      rintro (hmem | rfl)
      · exact hnd.1 hmem
      · exact h rfl

theorem nodupKeys_addCount (c : Counter) (k : String) (m : Nat)
    (hnd : (c.map Prod.fst).Nodup) : ((addCount c k m).map Prod.fst).Nodup := by
  induction c with
  | nil => simp [addCount]
  | cons p rest ih =>
    obtain ⟨k', n⟩ := p
    simp only [List.map_cons, List.nodup_cons] at hnd
    by_cases h : k' = k
    · subst h
      simpa [addCount] using hnd
    · simp only [addCount, if_neg h, List.map_cons, List.nodup_cons]
      refine ⟨?_, ih hnd.2⟩
      rw [mem_keys_addCount]
      rintro (hmem | rfl)
      · exact hnd.1 hmem
      · exact h rfl

end Perf

namespace Perf

theorem pos_bump (c : Counter) (k : String) (hpos : ∀ p ∈ c, 0 < p.2) :
    ∀ p ∈ bump c k, 0 < p.2 := by
  induction c with
  | nil =>
    intro p hp
    simp [bump] at hp
    simp [hp]
  | cons q rest ih =>
    obtain ⟨k', n⟩ := q
    intro p hp
    by_cases h : k' = k
    · simp only [bump, if_pos h, List.mem_cons] at hp
      rcases hp with rfl | hp
      · simp
      · exact hpos p (List.mem_cons_of_mem _ hp)
    · simp only [bump, if_neg h, List.mem_cons] at hp
      rcases hp with rfl | hp
      · exact hpos (k', n) (List.mem_cons_self _ _)
      · exact ih (fun q hq => hpos q (List.mem_cons_of_mem _ hq)) p hp

theorem pos_addCount (c : Counter) (k : String) (m : Nat) (hm : 0 < m)
    (hpos : ∀ p ∈ c, 0 < p.2) : ∀ p ∈ addCount c k m, 0 < p.2 := by
  induction c with
  | nil =>
    intro p hp
    simp [addCount] at hp
    simp [hp, hm]
  | cons q rest ih =>
    obtain ⟨k', n⟩ := q
    intro p hp
    by_cases h : k' = k
    · simp only [addCount, if_pos h, List.mem_cons] at hp
      rcases hp with rfl | hp
      · simp
        omega
      · exact hpos p (List.mem_cons_of_mem _ hp)
    · simp only [addCount, if_neg h, List.mem_cons] at hp
      rcases hp with rfl | hp
      · exact hpos (k', n) (List.mem_cons_self _ _)
      · exact ih (fun q hq => hpos q (List.mem_cons_of_mem _ hq)) p hp

theorem lookupCount_eq_zero (c : Counter) (k : String)
    (hk : k ∉ c.map Prod.fst) : lookupCount c k = 0 := by
  induction c with
  | nil => simp [lookupCount]
  | cons q rest ih =>
    obtain ⟨k', n⟩ := q
    simp only [List.map_cons, List.mem_cons] at hk
    push_neg at hk
    simp [lookupCount, Ne.symm hk.1 ∘ Eq.symm, ih hk.2]
    intro h
    exact absurd h.symm hk.1

theorem mergeCounters_cons (c : Counter) (k : String) (n : Nat) (d : Counter) :
    mergeCounters c ((k, n) :: d) = mergeCounters (addCount c k n) d := rfl

theorem lookupCount_mergeCounters (c d : Counter) (k : String)
    (hd : (d.map Prod.fst).Nodup) :
    lookupCount (mergeCounters c d) k = lookupCount c k + lookupCount d k := by
  induction d generalizing c with
  | nil => simp [mergeCounters, lookupCount]
  | cons q rest ih =>
    obtain ⟨k0, n0⟩ := q
    simp only [List.map_cons, List.nodup_cons] at hd
    rw [mergeCounters_cons, ih _ hd.2]
    by_cases h : k0 = k
    · subst h
      rw [lookupCount_addCount_self, lookupCount_eq_zero rest k0 hd.1]
      simp [lookupCount]
    · rw [lookupCount_addCount_ne _ _ _ _ h]
      simp [lookupCount, h]

theorem nodupKeys_mergeCounters (c d : Counter)
    (hc : (c.map Prod.fst).Nodup) :
    ((mergeCounters c d).map Prod.fst).Nodup := by
  induction d generalizing c with
  | nil => exact hc
  | cons q rest ih =>
    obtain ⟨k0, n0⟩ := q
    rw [mergeCounters_cons]
    exact ih _ (nodupKeys_addCount _ _ _ hc)

theorem pos_mergeCounters (c d : Counter) (hc : ∀ p ∈ c, 0 < p.2)
    (hd : ∀ p ∈ d, 0 < p.2) : ∀ p ∈ mergeCounters c d, 0 < p.2 := by
  induction d generalizing c with
  | nil => exact hc
  | cons q rest ih =>
    obtain ⟨k0, n0⟩ := q
    rw [mergeCounters_cons]
    exact ih _
      (pos_addCount _ _ _ (hd (k0, n0) (List.mem_cons_self _ _)) hc)
      (fun q hq => hd q (List.mem_cons_of_mem _ hq))

end Perf

namespace Perf

theorem lookupCount_foldl_bump (ks : List String) (c : Counter) (k : String) :
    lookupCount (ks.foldl bump c) k = lookupCount c k + ks.count k := by
  induction ks generalizing c with
  | nil => simp
  | cons k0 ks ih =>
    rw [List.foldl_cons, ih]
    by_cases h : k0 = k
    · subst h
      rw [lookupCount_bump_self]
      simp [List.count_cons]
      omega
    · rw [lookupCount_bump_ne _ _ _ h]
      simp [List.count_cons, Ne.symm h]

theorem sumCounts_foldl_bump (ks : List String) (c : Counter) :
    sumCounts (ks.foldl bump c) = sumCounts c + ks.length := by
  induction ks generalizing c with
  | nil => simp
  | cons k0 ks ih =>
    rw [List.foldl_cons, ih, sumCounts_bump]
    simp
    omega

theorem nodupKeys_foldl_bump (ks : List String) (c : Counter)
    (hnd : (c.map Prod.fst).Nodup) : ((ks.foldl bump c).map Prod.fst).Nodup := by
  induction ks generalizing c with
  | nil => exact hnd
  | cons k0 ks ih => exact ih _ (nodupKeys_bump _ _ hnd)

theorem pos_foldl_bump (ks : List String) (c : Counter)
    (hpos : ∀ p ∈ c, 0 < p.2) : ∀ p ∈ ks.foldl bump c, 0 < p.2 := by
  induction ks generalizing c with
  | nil => exact hpos
  | cons k0 ks ih => exact ih _ (pos_bump _ _ hpos)

theorem mem_keys_foldl_bump (ks : List String) (c : Counter) (j : String)
    (hj : j ∈ (ks.foldl bump c).map Prod.fst) :
    j ∈ c.map Prod.fst ∨ j ∈ ks := by
  induction ks generalizing c with
  | nil => exact Or.inl hj
  | cons k0 ks ih =>
    rw [List.foldl_cons] at hj
    rcases ih _ hj with hc | hks
    · rw [mem_keys_bump] at hc
      rcases hc with hc | rfl
      · exact Or.inl hc
      · exact Or.inr (List.mem_cons_self _ _)
    · exact Or.inr (List.mem_cons_of_mem _ hks)

theorem mem_counter_iff (c : Counter) (p : String × Nat)
    (hnd : (c.map Prod.fst).Nodup) (hpos : ∀ q ∈ c, 0 < q.2) :
    p ∈ c ↔ 0 < p.2 ∧ lookupCount c p.1 = p.2 := by
  obtain ⟨pk, pn⟩ := p
  induction c with
  | nil =>
    simp [lookupCount]
    omega
  | cons q rest ih =>
    obtain ⟨k', n⟩ := q
    simp only [List.map_cons, List.nodup_cons] at hnd
    have hpos' : ∀ q ∈ rest, 0 < q.2 :=
      fun q hq => hpos q (List.mem_cons_of_mem _ hq)
    constructor
    · intro hp
      rcases List.mem_cons.mp hp with heq | hp'
      · rw [Prod.mk.injEq] at heq
        obtain ⟨rfl, rfl⟩ := heq
        refine ⟨hpos _ (List.mem_cons_self _ _), ?_⟩
        simp [lookupCount]
      · have hne : k' ≠ pk := by
          intro hEq
          exact hnd.1 (hEq ▸ List.mem_map_of_mem Prod.fst hp')
        have := (ih hnd.2 hpos').mp hp'
        simp only [lookupCount, if_neg hne]
        exact this
    · rintro ⟨hppos, hlook⟩
      by_cases h : k' = pk
      · subst h
        simp only [lookupCount, if_pos rfl] at hlook
        subst hlook
        exact List.mem_cons_self _ _
      · simp only [lookupCount, if_neg h] at hlook
        exact List.mem_cons_of_mem _ ((ih hnd.2 hpos').mpr ⟨hppos, hlook⟩)

/-! ### Pipeline lemmas -/

theorem procRecords_cons (opts : Options) (iK iJ : String → Bool)
    (st : Option String × Counter) (r : RawRecord) (rs : List RawRecord) :
    procRecords opts iK iJ st (r :: rs) =
      procRecords opts iK iJ (step opts iK iJ st r) rs := rfl

theorem procRecords_some (opts : Options) (iK iJ : String → Bool) (e : String)
    (c : Counter) (rs : List RawRecord) :
    procRecords opts iK iJ (some e, c) rs =
      (some e,
        ((rs.filter (fun r => r.event = e)).map (stackKey opts iK iJ)).foldl
          bump c) := by
  induction rs generalizing c with
  | nil => simp [procRecords]
  | cons r rs ih =>
    rw [procRecords_cons]
    by_cases h : r.event = e
    · rw [show step opts iK iJ (some e, c) r
          = (some e, bump c (stackKey opts iK iJ r)) by simp [step, h]]
      rw [ih]
      simp [List.filter_cons, h]
    · rw [show step opts iK iJ (some e, c) r = (some e, c) by simp [step, h]]
      rw [ih]
      simp [List.filter_cons, h]

theorem runWorker_eq (opts : Options) (iK iJ : String → Bool)
    (rs : List RawRecord) :
    runWorker opts iK iJ rs =
      ((keptRecords opts.event_filter rs).map (stackKey opts iK iJ)).foldl
        bump [] := by
  cases hf : opts.event_filter with
  | some e =>
    rw [runWorker, hf, procRecords_some]
    rfl
  | none =>
    cases rs with
    | nil => simp [runWorker, procRecords, keptRecords, hf]
    | cons r rs' =>
      rw [runWorker, hf, procRecords_cons]
      rw [show step opts iK iJ (none, []) r
          = (some r.event, bump [] (stackKey opts iK iJ r)) from rfl]
      rw [procRecords_some]
      simp [keptRecords, List.filter_cons]

theorem nodupKeys_runWorker (opts : Options) (iK iJ : String → Bool)
    (rs : List RawRecord) : ((runWorker opts iK iJ rs).map Prod.fst).Nodup := by
  rw [runWorker_eq]
  exact nodupKeys_foldl_bump _ _ (by simp)

theorem pos_runWorker (opts : Options) (iK iJ : String → Bool)
    (rs : List RawRecord) : ∀ p ∈ runWorker opts iK iJ rs, 0 < p.2 := by
  rw [runWorker_eq]
  exact pos_foldl_bump _ _ (by simp)

end Perf

namespace Perf

theorem lookupCount_foldl_merge (opts : Options) (iK iJ : String → Bool)
    (parts : List (List RawRecord)) (acc : Counter) (k : String) :
    lookupCount
      (parts.foldl
        (fun a part => mergeCounters a (runWorker opts iK iJ part)) acc) k =
      lookupCount acc k +
        (parts.map (fun part => lookupCount (runWorker opts iK iJ part) k)).sum := by
  induction parts generalizing acc with
  | nil => simp
  | cons part parts ih =>
    rw [List.foldl_cons, ih,
      lookupCount_mergeCounters _ _ _ (nodupKeys_runWorker opts iK iJ part)]
    simp
    omega

theorem lookupCount_runWorkers (opts : Options) (iK iJ : String → Bool)
    (parts : List (List RawRecord)) (k : String) :
    lookupCount (runWorkers opts iK iJ parts) k =
      (parts.map (fun part => lookupCount (runWorker opts iK iJ part) k)).sum := by
  rw [runWorkers, lookupCount_foldl_merge]
  simp [lookupCount]

theorem nodupKeys_runWorkers (opts : Options) (iK iJ : String → Bool)
    (parts : List (List RawRecord)) :
    ((runWorkers opts iK iJ parts).map Prod.fst).Nodup := by
  rw [runWorkers]
  have h : ∀ (acc : Counter), (acc.map Prod.fst).Nodup →
      ((parts.foldl
        (fun a part => mergeCounters a (runWorker opts iK iJ part)) acc).map
          Prod.fst).Nodup := by
    induction parts with
    | nil => exact fun acc hacc => hacc
    | cons part parts ih =>
      intro acc hacc
      rw [List.foldl_cons]
      exact ih _ (nodupKeys_mergeCounters _ _ hacc)
  exact h [] (by simp)

theorem pos_runWorkers (opts : Options) (iK iJ : String → Bool)
    (parts : List (List RawRecord)) :
    ∀ p ∈ runWorkers opts iK iJ parts, 0 < p.2 := by
  rw [runWorkers]
  have h : ∀ (acc : Counter), (∀ p ∈ acc, 0 < p.2) →
      ∀ p ∈ parts.foldl
        (fun a part => mergeCounters a (runWorker opts iK iJ part)) acc,
        0 < p.2 := by
    induction parts with
    | nil => exact fun acc hacc => hacc
    | cons part parts ih =>
      intro acc hacc
      rw [List.foldl_cons]
      exact ih _ (pos_mergeCounters _ _ hacc (pos_runWorker opts iK iJ part))
  exact h [] (by simp)

theorem count_filter_map_join (opts : Options) (iK iJ : String → Bool)
    (e : String) (parts : List (List RawRecord)) (k : String) :
    (parts.map (fun part =>
      (((part.filter (fun r => r.event = e)).map (stackKey opts iK iJ)).count
        k))).sum =
      (((parts.flatten.filter (fun r => r.event = e)).map
        (stackKey opts iK iJ)).count k) := by
  induction parts with
  | nil => simp
  | cons part parts ih =>
    simp only [List.map_cons, List.sum_cons, List.flatten_cons,
      List.filter_append, List.map_append, List.count_append, ih]

end Perf

namespace Perf

/-- A frame's root-side prefix never contains the marker: helper for the
trimmer claim. -/
theorem head_dropWhile_marker (m : String) (l : List String) (hm : m ∈ l) :
    (l.dropWhile (fun f => f ≠ m)).head? = some m := by
  induction l with
  | nil => cases hm
  | cons a l ih =>
    by_cases h : a = m
    · subst h
      rw [List.dropWhile_cons]
      simp
    · rw [List.dropWhile_cons]
      simp only [ne_eq, h, not_false_eq_true, decide_True, if_true]
      refine ih ?_
      rcases List.mem_cons.mp hm with rfl | h'
      · exact absurd rfl h
      · exact h'

end Perf

open Perf

/-- Trivial classification predicate used by the concrete witnesses. -/
def isK0 : String → Bool := fun _ => false

/-- Concrete record with event `cycles`, used by witnesses. -/
def recCycles : RawRecord := ⟨"app", 1, 1, "cycles", []⟩

/-- Concrete record with event `instructions`, used by witnesses. -/
def recInstr : RawRecord := ⟨"app", 1, 1, "instructions", []⟩

/-- Configuration with the event filter unset. -/
def optsDyn : Options := Options.default

/-- Configuration with the event filter explicitly `cycles`. -/
def optsEvt : Options := { Options.default with event_filter := some "cycles" }

/-- Configuration requesting zero workers. -/
def optsZero : Options := { Options.default with nthreads := 0 }

/-- C1: the sum of all counts in the folded counter equals the number of
records that matched the event filter, and each folded stack's count equals
exactly the number of records whose derived stack canonicalizes to that key
after filtering and trimming. -/
theorem claim_C1_fold_counts (opts : Options) (iK iJ : String → Bool)
    (rs : List RawRecord) :
    sumCounts (runWorker opts iK iJ rs) =
      (keptRecords opts.event_filter rs).length ∧
    ∀ k, lookupCount (runWorker opts iK iJ rs) k =
      ((keptRecords opts.event_filter rs).map (stackKey opts iK iJ)).count k := by
  constructor
  · rw [runWorker_eq, sumCounts_foldl_bump]
    simp [sumCounts]
  · intro k
    rw [runWorker_eq, lookupCount_foldl_bump]
    simp [lookupCount]

/-- C2 counterexample: with the event filter unset, two workers resolve their
own first-seen events independently, so the (stack-key, count) pairs of a
two-worker run differ from those of the one-worker run on the same records. -/
theorem claim_C2_counterexample :
    ("app", 2) ∈ runWorkers optsDyn isK0 isK0 [[recCycles], [recInstr]] ∧
    ("app", 2) ∉
      runWorkers optsDyn isK0 isK0 [[[recCycles], [recInstr]].flatten] := by
  decide

/-- C2 amended: when the event filter is explicitly configured, the set of
(stack-key, count) pairs produced by any partition of the records into worker
ranges equals the set produced by a single worker over the whole input. -/
theorem claim_C2_amended (opts : Options) (iK iJ : String → Bool) (e : String)
    (hf : opts.event_filter = some e) (parts : List (List RawRecord))
    (p : String × Nat) :
    p ∈ runWorkers opts iK iJ parts ↔
      p ∈ runWorkers opts iK iJ [parts.flatten] := by
  have hlook : ∀ rs k, lookupCount (runWorker opts iK iJ rs) k =
      ((rs.filter (fun r => r.event = e)).map (stackKey opts iK iJ)).count k := by
    intro rs k
    rw [runWorker_eq, lookupCount_foldl_bump, hf]
    simp [lookupCount, keptRecords]
  have heq : ∀ k, lookupCount (runWorkers opts iK iJ parts) k =
      lookupCount (runWorkers opts iK iJ [parts.flatten]) k := by
    intro k
    rw [lookupCount_runWorkers, lookupCount_runWorkers]
    simp only [List.map_cons, List.map_nil, List.sum_cons, List.sum_nil,
      Nat.add_zero]
    rw [hlook]
    rw [← count_filter_map_join opts iK iJ e parts k]
    exact congrArg List.sum (List.map_congr_left (fun part _ => hlook part k))
  rw [mem_counter_iff _ _ (nodupKeys_runWorkers opts iK iJ parts)
        (pos_runWorkers opts iK iJ parts),
      mem_counter_iff _ _ (nodupKeys_runWorkers opts iK iJ [parts.flatten])
        (pos_runWorkers opts iK iJ [parts.flatten]),
      heq]

/-- C2 witness: the amended equivalence evaluated at a concrete two-range
partition with an explicit `cycles` filter. -/
theorem claim_C2_witness :
    (("app", 1) ∈ runWorkers optsEvt isK0 isK0 [[recCycles], [recInstr]]) ↔
      ("app", 1) ∈
        runWorkers optsEvt isK0 isK0 [[[recCycles], [recInstr]].flatten] :=
  claim_C2_amended optsEvt isK0 isK0 "cycles" rfl [[recCycles], [recInstr]]
    ("app", 1)

/-- C3: the trimmer passes the sequence through when no marker is configured
or the marker is absent; when the marker occurs, it discards exactly a
marker-free root-side prefix and keeps the matched frame (now at the root) and
everything below it toward the leaf. -/
theorem claim_C3_trim (m : String) (frames : List String) :
    trimStack none frames = frames ∧
    (m ∉ frames → trimStack (some m) frames = frames) ∧
    (m ∈ frames →
      ∃ pre, m ∉ pre ∧ frames = pre ++ trimStack (some m) frames ∧
        (trimStack (some m) frames).head? = some m) := by
  refine ⟨rfl, ?_, ?_⟩
  · intro hm
    simp [trimStack, hm]
  · intro hm
    refine ⟨frames.takeWhile (fun f => f ≠ m), ?_, ?_, ?_⟩
    · intro hmem
      have := List.mem_takeWhile_imp hmem
      simp at this
    · simp only [trimStack, if_pos hm]
      exact (List.takeWhile_append_dropWhile (p := fun f => f ≠ m)
        (l := frames)).symm
    · simp only [trimStack, if_pos hm]
      exact head_dropWhile_marker m frames hm

/-- C3 witness: the trimmer evaluated at the spec's Scenario B stack. -/
theorem claim_C3_witness :
    ∃ pre, "foo" ∉ pre ∧
      ["root", "foo", "leaf"] =
        pre ++ trimStack (some "foo") ["root", "foo", "leaf"] ∧
      (trimStack (some "foo") ["root", "foo", "leaf"]).head? = some "foo" :=
  (claim_C3_trim "foo" ["root", "foo", "leaf"]).2.2 (by decide)

/-- C4: an established EventFilter never changes for the rest of a worker's
range — whether set explicitly or resolved from the first record observed —
and a record with a non-matching event name leaves the state (in particular
the counter) unchanged, producing no error. -/
theorem claim_C4_filter_stable (opts : Options) (iK iJ : String → Bool) :
    (∀ e c rs, (procRecords opts iK iJ (some e, c) rs).1 = some e) ∧
    (∀ c r rs, (procRecords opts iK iJ (none, c) (r :: rs)).1 = some r.event) ∧
    (∀ e c r, r.event ≠ e → step opts iK iJ (some e, c) r = (some e, c)) := by
  have h1 : ∀ rs e c, (procRecords opts iK iJ (some e, c) rs).1 = some e := by
    intro rs
    induction rs with
    | nil => intro e c; rfl
    | cons r rs ih =>
      intro e c
      rw [procRecords_cons]
      by_cases h : r.event = e
      · rw [show step opts iK iJ (some e, c) r
            = (some e, bump c (stackKey opts iK iJ r)) by simp [step, h]]
        exact ih e _
      · rw [show step opts iK iJ (some e, c) r = (some e, c) by simp [step, h]]
        exact ih e c
  refine ⟨fun e c rs => h1 rs e c, ?_, ?_⟩
  · intro c r rs
    rw [procRecords_cons]
    rw [show step opts iK iJ (none, c) r
        = (some r.event, bump c (stackKey opts iK iJ r)) from rfl]
    exact h1 rs r.event _
  · intro e c r h
    simp [step, h]

/-- C4 witness: a record with a non-matching event name is ignored by an
established `cycles` filter without touching the counter. -/
theorem claim_C4_witness :
    step optsDyn isK0 isK0 (some "cycles", []) recInstr = (some "cycles", []) :=
  (claim_C4_filter_stable optsDyn isK0 isK0).2.2 "cycles" [] recInstr
    (by decide)

/-- C5: a configuration requesting zero workers is rejected before any input
processing; any run that succeeds had a positive worker count. -/
theorem claim_C5_zero_workers (opts : Options) (iK iJ : String → Bool)
    (lines : List String) :
    (opts.nthreads = 0 →
      runSpec opts iK iJ lines =
        Except.error "invalid configuration: zero workers requested") ∧
    (∀ out, runSpec opts iK iJ lines = Except.ok out → 1 ≤ opts.nthreads) := by
  constructor
  · intro h
    simp [runSpec, h]
  · intro out hout
    by_contra hlt
    have h0 : opts.nthreads = 0 := by omega
    rw [runSpec] at hout
    simp [h0] at hout

/-- C5 witness: the zero-worker configuration is rejected on any input. -/
theorem claim_C5_witness :
    runSpec optsZero isK0 isK0 [] =
      Except.error "invalid configuration: zero workers requested" :=
  (claim_C5_zero_workers optsZero isK0 isK0 []).1 rfl

/-- C6: no malformed trace content fails a run with a valid configuration —
the run always returns a success result built from whatever blocks parsed; a
malformed header line discards exactly its own block; a well-formed header
keeps the block with the malformed frame lines individually discarded. -/
theorem claim_C6_malformed (opts : Options) (iK iJ : String → Bool)
    (lines : List String) (hn : opts.nthreads ≠ 0) :
    runSpec opts iK iJ lines =
      Except.ok (writeOutput (runWorker opts iK iJ
        ((splitBlocks lines).filterMap parseBlock))) ∧
    (∀ hd rest, parseHeader hd = none → parseBlock (hd :: rest) = none) ∧
    (∀ hd rest hdr, parseHeader hd = some hdr →
      parseBlock (hd :: rest) =
        some ⟨hdr.comm, hdr.pid, hdr.tid, hdr.event,
          rest.filterMap parseFrame⟩) := by
  refine ⟨?_, ?_, ?_⟩
  · simp [runSpec, hn]
  · intro hd rest hh
    simp [parseBlock, hh]
  · intro hd rest hdr hh
    simp [parseBlock, hh]

/-- C6 witness: a run over a lone malformed line succeeds with empty output. -/
theorem claim_C6_witness :
    runSpec optsDyn isK0 isK0 ["not a header"] = Except.ok "" := by
  have h := (claim_C6_malformed optsDyn isK0 isK0 ["not a header"]
    (by decide)).1
  exact h.trans (congrArg Except.ok (by decide))

/-- C7: the serialized output is one newline-terminated `<stack-key> <count>`
line per counter entry, the keys are pairwise distinct, and every key is the
stack key (process label plus pid/tid suffixes plus semicolon-joined frames)
of some filter-surviving record. -/
theorem claim_C7_output (opts : Options) (iK iJ : String → Bool)
    (rs : List RawRecord) :
    writeOutput (runWorker opts iK iJ rs) =
      String.join ((runWorker opts iK iJ rs).map
        (fun p => p.1 ++ " " ++ toString p.2 ++ "\n")) ∧
    ((runWorker opts iK iJ rs).map Prod.fst).Nodup ∧
    (∀ p ∈ runWorker opts iK iJ rs,
      ∃ r ∈ keptRecords opts.event_filter rs,
        p.1 = stackKey opts iK iJ r) := by
  refine ⟨rfl, nodupKeys_runWorker opts iK iJ rs, ?_⟩
  intro p hp
  have hmem : p.1 ∈ (runWorker opts iK iJ rs).map Prod.fst :=
    List.mem_map_of_mem _ hp
  rw [runWorker_eq] at hmem
  rcases mem_keys_foldl_bump _ _ _ hmem with h0 | hk
  · simp at h0
  · rcases List.mem_map.mp hk with ⟨r, hr, hkey⟩
    exact ⟨r, hr, hkey.symm⟩

/-- C7 witness: the single counter entry of a one-record run carries the stack
key of that record. -/
theorem claim_C7_witness :
    ∃ r ∈ keptRecords optsDyn.event_filter [recCycles],
      ("app", (1 : Nat)).1 = stackKey optsDyn isK0 isK0 r :=
  (claim_C7_output optsDyn isK0 isK0 [recCycles]).2.2 ("app", 1) (by decide)

/-- C8: the empty input produces the empty output and a success result. -/
theorem claim_C8_empty (opts : Options) (iK iJ : String → Bool)
    (hn : opts.nthreads ≠ 0) :
    runSpec opts iK iJ [] = Except.ok "" := by
  simp [runSpec, hn]
  rfl

/-- C8 witness: the empty-input run with the default configuration. -/
theorem claim_C8_witness : runSpec optsDyn isK0 isK0 [] = Except.ok "" :=
  claim_C8_empty optsDyn isK0 isK0 (by decide)

/-- C9: `into_parts` sets `annotate_jit` to `jit || all` and
`annotate_kernel` to `kernel || all`; in particular the `all` flag forces both
annotation options regardless of the individual flags. -/
theorem claim_C9_annotate_all (o : Opt) :
    (o.into_parts).2.annotate_jit = (o.jit || o.all) ∧
    (o.into_parts).2.annotate_kernel = (o.kernel || o.all) ∧
    (o.all = true →
      (o.into_parts).2.annotate_jit = true ∧
      (o.into_parts).2.annotate_kernel = true) := by
  refine ⟨rfl, rfl, ?_⟩
  intro h
  simp [Opt.into_parts, h]

/-- Command line with only the `--all` flag set, used by the C9 witness. -/
def optAll : Opt :=
  ⟨false, true, false, false, false, false, false, 0, none, 1, none, none⟩

/-- C9 witness: `--all` alone turns on both annotations. -/
theorem claim_C9_witness :
    (optAll.into_parts).2.annotate_jit = true ∧
    (optAll.into_parts).2.annotate_kernel = true :=
  (claim_C9_annotate_all optAll).2.2 rfl

/-- C10: `into_parts` starts from the default configuration and determines
every field: the eight assigned fields take exactly the command-line values
(with the two annotation fields as in C9), and—`Options` having exactly those
eight fields—no other field exists to deviate from its default. -/
theorem claim_C10_into_parts (o : Opt) :
    o.into_parts =
      (o.infile,
        { include_pid := o.pid
          include_tid := o.tid
          include_addrs := o.addrs
          annotate_jit := o.jit || o.all
          annotate_kernel := o.kernel || o.all
          event_filter := o.event_filter
          nthreads := o.nthreads
          skip_after := o.skip_after }) := rfl
